import Mathlib

/-!
# Verification of the toy blockchain ledger engine (`src/blockchain.rs`)

This file gives a shallow embedding of the ledger engine in `src/blockchain.rs`
and proves properties of it.

Modelling conventions:

* Rust `String` becomes Lean `String`.  All digests produced by the program are
  ASCII (lowercase hex characters), so Rust's byte-indexed slicing coincides
  with character-indexed slicing on the strings the program manipulates.
* Rust `f32` amounts become `Rat`.  The program never performs arithmetic on
  amounts — they are only constructed from literals, moved and compared — so
  any faithful injection of the float values works; the literals `100.0` and
  `50.0` used by the program are exactly representable.
* Rust `u32` fields become `Nat`; the two places where wrap-around semantics
  can be observed (`nonce += 1` during sealing, `len() as u32` for the block
  count) carry an explicit `% 2 ^ 32`.
* `Chain::hash` is SHA-256 (external `sha2` crate) over the `serde_json`
  serialization of the record.  The cryptographic primitive is external to the
  repository, so the development is parameterized over an arbitrary digest
  function `hash : HashInput → String`; the in-repository rendering step
  `Chain::hex_to_string` is embedded concretely below.
* The proof-of-work loop is unbounded in the source; it is embedded with an
  explicit fuel argument.  `RunRes.timeout` marks fuel exhaustion (the loop
  still running), `RunRes.panicked` marks a Rust panic.
* The wall clock (`Utc::now().timestamp_millis()`) is an input: block
  generation takes the timestamp as a parameter.
-/

/-- `struct Transaction { sender, receiver, amount }` from `blockchain.rs`. -/
structure Transaction where
  sender : String
  receiver : String
  amount : Rat
deriving DecidableEq, Repr

/-- `struct Blockheader { timestamp, nonce, pre_hash, merkle, difficulty }`. -/
structure Blockheader where
  timestamp : Int
  nonce : Nat
  pre_hash : String
  merkle : String
  difficulty : Nat
deriving DecidableEq, Repr

/-- `struct Block { header, count, transactions }`. -/
structure Block where
  header : Blockheader
  count : Nat
  transactions : List Transaction
deriving DecidableEq, Repr

/-- `struct Chain { chain, curr_trans, difficulty, miner_addr, reward }`. -/
structure Chain where
  chain : List Block
  curr_trans : List Transaction
  difficulty : Nat
  miner_addr : String
  reward : Rat
deriving DecidableEq, Repr

/-- The three shapes of record the program feeds to `Chain::hash`:
transactions (Merkle leaves), block headers (chain links and sealing), and
concatenated digest pairs (internal Merkle nodes). -/
inductive HashInput where
  | tx : Transaction → HashInput
  | header : Blockheader → HashInput
  | str : String → HashInput

/-- Result of running a fuelled computation: a value, a Rust panic, or fuel
exhaustion (the source loop would still be running). -/
inductive RunRes (α : Type) where
  | ok : α → RunRes α
  | panicked : RunRes α
  | timeout : RunRes α
deriving DecidableEq, Repr

/-- Character-level prefix of a string (`&s[..n]` in the source; the sliced
strings are ASCII digests, where byte and character indices coincide). -/
def strTake (s : String) (n : Nat) : String :=
  String.mk (s.data.take n)

/-- ASCII decimal digit test, as used by Rust's `u32` parser. -/
def isDigitChar (c : Char) : Bool :=
  48 ≤ c.toNat && c.toNat ≤ 57

/-- Numeric value of a list of ASCII decimal digits, most significant first. -/
def digitsVal (cs : List Char) : Nat :=
  cs.foldl (fun acc c => 10 * acc + (c.toNat - 48)) 0

/-- Digit-string part of Rust's `u32` parser: at least one ASCII decimal
digit, value below `2 ^ 32`; anything else is `Err` (`none`). -/
def parseDigits (cs : List Char) : Option Nat :=
  if cs.isEmpty then none
  else if cs.all isDigitChar then
    if digitsVal cs < 2 ^ 32 then some (digitsVal cs) else none
  else none

/-- Rust `str::parse::<u32>()`: optional leading `'+'`, then at least one
ASCII decimal digit, value below `2 ^ 32`; anything else is `Err` (`none`). -/
def parseU32 (s : String) : Option Nat :=
  match s.data with
  | '+' :: rest => parseDigits rest
  | cs => parseDigits cs

/-- Lowercase hexadecimal digit character for a value below 16. -/
def hexDigit (n : Nat) : Char :=
  if n < 10 then Char.ofNat (48 + n) else Char.ofNat (87 + n)

/-- Rust's `format!("{:x}", b)` for a byte: lowercase hex without zero padding
(one character below 16, two characters from 16 up). -/
def byteHex (b : Nat) : List Char :=
  if b < 16 then [hexDigit b] else [hexDigit (b / 16), hexDigit (b % 16)]

/-- `Chain::hex_to_string`: concatenates the unpadded lowercase hex rendering
of each byte. -/
def hex_to_string (vec_res : List Nat) : String :=
  String.mk (vec_res.flatMap byteHex)

/-- Lowercase hexadecimal character (`'0'`–`'9'`, `'a'`–`'f'`). -/
def isHexChar (c : Char) : Bool :=
  isDigitChar c || (97 ≤ c.toNat && c.toNat ≤ 102)

/-- `new_transaction`: pushes the transaction onto `curr_trans` and returns
`true`; no validation of any argument. -/
def new_transaction (sender receiver : String) (amount : Rat) (c : Chain) :
    Chain × Bool :=
  ({ c with curr_trans := c.curr_trans ++ [⟨sender, receiver, amount⟩] }, true)

/-- `update_difficulty`: overwrites the difficulty, returns `true`. -/
def update_difficulty (difficulty : Nat) (c : Chain) : Chain × Bool :=
  ({ c with difficulty := difficulty }, true)

/-- `update_reward`: overwrites the reward, returns `true`. -/
def update_reward (reward : Rat) (c : Chain) : Chain × Bool :=
  ({ c with reward := reward }, true)

/-- `last_hash`: digest of the last block's header, or the hand-written
64-character all-`'0'` sentinel (`String::from_utf8(vec![48; 64])`) when the
chain is empty. -/
def last_hash (hash : HashInput → String) (c : Chain) : String :=
  match c.chain.getLast? with
  | some b => hash (.header b.header)
  | none => String.mk (List.replicate 64 '0')

/-- The `while merkle.len() > 1` loop of `Chain::get_merkle`: remove the two
front-most digests, hash their concatenation, push the result to the back.
The fuel is instantiated with the initial list length, which always suffices
(each pass shortens the list by one), so the fuel-exhaustion branch is
unreachable from `get_merkle`. -/
def merkleLoop (hash : HashInput → String) : Nat → List String → Option String
  | _, [] => none
  | _, [x] => some x
  | 0, _ :: _ :: _ => none
  | fuel + 1, x :: y :: rest =>
      merkleLoop hash fuel (rest ++ [hash (.str (x ++ y))])

/-- `Chain::get_merkle`: hash each transaction in order, duplicate the last
digest when the count is odd, then reduce with `merkleLoop`.  `none` models
the panic on an empty input (the final `pop().unwrap()`; the `last().unwrap()`
in the odd branch can never fail, odd length implying non-emptiness). -/
def get_merkle (hash : HashInput → String) (curr_trans : List Transaction) :
    Option String :=
  let merkle := curr_trans.map (fun t => hash (.tx t))
  let padded :=
    if merkle.length % 2 = 1 then
      match merkle.getLast? with
      | some last => some (merkle ++ [last])
      | none => none
    else some merkle
  match padded with
  | none => none
  | some m => merkleLoop hash m.length m

/-- `header.nonce += 1` with release-mode wrap-around semantics. -/
def bumpNonce (h : Blockheader) : Blockheader :=
  { h with nonce := (h.nonce + 1) % 2 ^ 32 }

/-- The sealing predicate of one `proof_of_work` iteration: the slice of the
digest of length `difficulty` parses as the number zero. -/
def powAccept (hash : HashInput → String) (h : Blockheader) : Bool :=
  match parseU32 (strTake (hash (.header h)) h.difficulty) with
  | some 0 => true
  | _ => false

/-- `Chain::proof_of_work`, fuelled.  Each iteration hashes the header and
slices the first `difficulty` characters (`panicked` when the digest is
shorter than `difficulty`, the out-of-range `&hash[..difficulty]` slice).
`Ok(0)` stops with the current header; `Ok(nonzero)` and `Err` both increment
the nonce and retry. -/
def proof_of_work (hash : HashInput → String) :
    Nat → Blockheader → RunRes Blockheader
  | 0, _ => .timeout
  | fuel + 1, h =>
      let digest := hash (.header h)
      if h.difficulty ≤ digest.data.length then
        match parseU32 (strTake digest h.difficulty) with
        | some 0 => .ok h
        | _ => proof_of_work hash fuel (bumpNonce h)
      else .panicked

/-- `Chain::generate_new_block`: build the header from `last_hash` and the
current difficulty, prepend the reward transaction to the drained pending
buffer, set `count` (`len() as u32`), store the Merkle root, seal the header,
and append the block; returns `true` with the updated chain. -/
def generate_new_block (hash : HashInput → String) (fuel : Nat) (ts : Int)
    (c : Chain) : RunRes (Chain × Bool) :=
  let header : Blockheader :=
    { timestamp := ts, nonce := 0, pre_hash := last_hash hash c,
      merkle := "", difficulty := c.difficulty }
  let reward_trans : Transaction :=
    { sender := "Root", receiver := c.miner_addr, amount := c.reward }
  let transactions : List Transaction := reward_trans :: c.curr_trans
  match get_merkle hash transactions with
  | none => .panicked
  | some mkl =>
      match proof_of_work hash fuel { header with merkle := mkl } with
      | .ok h' =>
          .ok ({ c with
                  chain := c.chain ++
                    [{ header := h',
                       count := transactions.length % 2 ^ 32,
                       transactions := transactions }],
                  curr_trans := [] }, true)
      | .panicked => .panicked
      | .timeout => .timeout

/-- `Chain::new`: empty chain with reward `100.0`, then one genesis
`generate_new_block` call. -/
def Chain.new (hash : HashInput → String) (fuel : Nat) (ts : Int)
    (miner_addr : String) (difficulty : Nat) : RunRes Chain :=
  let c : Chain :=
    { chain := [], curr_trans := [], difficulty := difficulty,
      miner_addr := miner_addr, reward := 100 }
  match generate_new_block hash fuel ts c with
  | .ok res => .ok res.1
  | .panicked => .panicked
  | .timeout => .timeout

/-- Chain states reachable through the public operations, starting from a
successful `Chain::new`. -/
inductive Reachable (hash : HashInput → String) : Chain → Prop
  | init (fuel : Nat) (ts : Int) (addr : String) (diff : Nat) (c : Chain) :
      Chain.new hash fuel ts addr diff = .ok c → Reachable hash c
  | tx (c : Chain) (s r : String) (a : Rat) :
      Reachable hash c → Reachable hash (new_transaction s r a c).1
  | diff (c : Chain) (d : Nat) :
      Reachable hash c → Reachable hash (update_difficulty d c).1
  | rew (c : Chain) (v : Rat) :
      Reachable hash c → Reachable hash (update_reward v c).1
  | gen (c : Chain) (fuel : Nat) (ts : Int) (res : Chain × Bool) :
      Reachable hash c → generate_new_block hash fuel ts c = .ok res →
      Reachable hash res.1

/-- Folding a list of `submit_transaction` argument triples over the chain. -/
def submitAll (l : List (String × String × Rat)) (c : Chain) : Chain :=
  l.foldl (fun c t => (new_transaction t.1 t.2.1 t.2.2 c).1) c

/-- A character is determined by its code point. -/
theorem char_eq_of_toNat_eq {a b : Char} (h : a.toNat = b.toNat) : a = b :=
  Char.ext (UInt32.ext h)

/-- `(strTake s n).data` is the `n`-element prefix of `s.data`. -/
theorem strTake_data (s : String) (n : Nat) : (strTake s n).data = s.data.take n :=
  rfl

/-- Folding up a digit string yields zero exactly when the accumulator is zero
and every digit is the character `'0'`. -/
theorem digitsVal_foldl_eq_zero (cs : List Char) :
    ∀ acc : Nat, (∀ c ∈ cs, isDigitChar c = true) →
      (List.foldl (fun acc c => 10 * acc + (c.toNat - 48)) acc cs = 0 ↔
        acc = 0 ∧ ∀ c ∈ cs, c = '0') := by
  induction cs with
  | nil => intro acc _; simp
  | cons c cs ih =>
    intro acc hd
    rw [List.foldl_cons, ih _ (fun x hx => hd x (List.mem_cons_of_mem _ hx))]
    have hc := hd c (List.mem_cons_self _ _)
    simp only [isDigitChar, Bool.and_eq_true, decide_eq_true_eq] at hc
    constructor
    · rintro ⟨h1, h2⟩
      have hacc : acc = 0 := by omega
      have hcn : c.toNat = 48 := by omega
      refine ⟨hacc, ?_⟩
      intro x hx
      rcases List.mem_cons.mp hx with rfl | hx
      · exact char_eq_of_toNat_eq hcn
      · exact h2 x hx
    · rintro ⟨rfl, h2⟩
      have hc0 : c = '0' := h2 c (List.mem_cons_self _ _)
      subst hc0
      refine ⟨by decide, fun x hx => h2 x (List.mem_cons_of_mem _ hx)⟩

/-- `digitsVal` of a digit string is zero exactly when every character is `'0'`. -/
theorem digitsVal_eq_zero_iff (cs : List Char)
    (hd : ∀ c ∈ cs, isDigitChar c = true) :
    digitsVal cs = 0 ↔ ∀ c ∈ cs, c = '0' := by
  unfold digitsVal
  rw [digitsVal_foldl_eq_zero cs 0 hd]
  simp


/-- A hex character is not `'+'`, so the sign-stripping step of the `u32`
parser leaves a hex string unchanged. -/
theorem isHexChar_ne_plus (c : Char) (h : isHexChar c = true) : c ≠ '+' := by
  intro hc
  subst hc
  simp [isHexChar, isDigitChar] at h

/-- The character `'0'` is an ASCII digit. -/
theorem isDigitChar_zero : isDigitChar '0' = true := by decide

/-- `parseDigits` returns `some 0` exactly on a non-empty all-`'0'` string. -/
theorem parseDigits_eq_some_zero_iff (cs : List Char) :
    parseDigits cs = some 0 ↔ cs ≠ [] ∧ ∀ c ∈ cs, c = '0' := by
  unfold parseDigits
  by_cases hne : cs.isEmpty
  · rw [if_pos hne]
    have : cs = [] := by simpa using hne
    simp [this]
  · rw [if_neg hne]
    have hne' : cs ≠ [] := by simpa using hne
    by_cases hall : cs.all isDigitChar = true
    · rw [if_pos hall]
      have hd := List.all_eq_true.mp hall
      by_cases hz : digitsVal cs < 2 ^ 32
      · rw [if_pos hz]
        simp only [Option.some.injEq]
        constructor
        · intro h; exact ⟨hne', (digitsVal_eq_zero_iff cs hd).mp h⟩
        · intro h; exact (digitsVal_eq_zero_iff cs hd).mpr h.2
      · rw [if_neg hz]
        constructor
        · intro h; exact absurd h (by simp)
        · rintro ⟨_, h0⟩
          exact absurd ((digitsVal_eq_zero_iff cs hd).mpr h0 ▸ hz) (by simp)
    · rw [if_neg hall]
      constructor
      · intro h; exact absurd h (by simp)
      · rintro ⟨_, h0⟩
        refine absurd (List.all_eq_true.mpr fun x hx => ?_) hall
        rw [h0 x hx]; exact isDigitChar_zero

/-- On a string whose first character is not `'+'`, `parseU32` is
`parseDigits` of the full character list. -/
theorem parseU32_eq_parseDigits (s : String) (c : Char) (cs : List Char)
    (hcs : s.data = c :: cs) (hc : c ≠ '+') :
    parseU32 s = parseDigits (c :: cs) := by
  unfold parseU32
  rw [hcs]
  split
  · next rest heq =>
    exact absurd (List.head_eq_of_cons_eq heq) hc
  · rfl

/-- `parseU32` on a non-empty string of hex characters returns `some 0`
exactly when every character is `'0'`. -/
theorem parseU32_eq_some_zero_iff (s : String) (hne : s.data ≠ [])
    (hhex : ∀ c ∈ s.data, isHexChar c = true) :
    parseU32 s = some 0 ↔ ∀ c ∈ s.data, c = '0' := by
  obtain ⟨c, cs, hcs⟩ : ∃ c cs, s.data = c :: cs := by
    cases h : s.data with
    | nil => exact absurd h hne
    | cons c cs => exact ⟨c, cs, rfl⟩
  have hcplus : c ≠ '+' :=
    isHexChar_ne_plus c (hhex c (by rw [hcs]; exact List.mem_cons_self _ _))
  rw [parseU32_eq_parseDigits s c cs hcs hcplus, parseDigits_eq_some_zero_iff,
    hcs]
  simp

/-- `parseU32` of the empty string is `none` (Rust's `Err(Empty)`). -/
theorem parseU32_empty (s : String) (h : s.data = []) : parseU32 s = none := by
  unfold parseU32
  rw [h]
  rfl

/-- `powAccept` holds exactly when the sliced prefix parses as zero. -/
theorem powAccept_iff_parse (hash : HashInput → String) (h : Blockheader) :
    powAccept hash h = true ↔
      parseU32 (strTake (hash (.header h)) h.difficulty) = some 0 := by
  unfold powAccept
  cases hp : parseU32 (strTake (hash (.header h)) h.difficulty) with
  | none => simp
  | some v => cases v <;> simp

/-- Definitional unfolding of one sealing-loop iteration. -/
theorem proof_of_work_unfold (hash : HashInput → String) (fuel : Nat)
    (h : Blockheader) :
    proof_of_work hash (fuel + 1) h =
      if h.difficulty ≤ (hash (.header h)).data.length then
        match parseU32 (strTake (hash (.header h)) h.difficulty) with
        | some 0 => .ok h
        | _ => proof_of_work hash fuel (bumpNonce h)
      else .panicked := rfl

/-- One unfolding of the sealing loop when the slice is in range: stop with
the current header on acceptance, otherwise bump the nonce and retry. -/
theorem proof_of_work_succ (hash : HashInput → String) (fuel : Nat)
    (h : Blockheader) (hdl : h.difficulty ≤ (hash (.header h)).data.length) :
    proof_of_work hash (fuel + 1) h =
      if powAccept hash h then .ok h
      else proof_of_work hash fuel (bumpNonce h) := by
  rw [proof_of_work_unfold, if_pos hdl]
  by_cases hacc : powAccept hash h = true
  · rw [if_pos hacc]
    rw [powAccept_iff_parse] at hacc
    rw [hacc]
  · rw [if_neg hacc]
    have hne : parseU32 (strTake (hash (.header h)) h.difficulty) ≠ some 0 :=
      fun hc => hacc ((powAccept_iff_parse hash h).mpr hc)
    cases hp : parseU32 (strTake (hash (.header h)) h.difficulty) with
    | none => rfl
    | some v =>
      cases v with
      | zero => exact absurd hp hne
      | succ n => rfl

/-- One unfolding of the sealing loop when the difficulty exceeds the digest
length: the out-of-range slice panics. -/
theorem proof_of_work_succ_panic (hash : HashInput → String) (fuel : Nat)
    (h : Blockheader) (hdl : (hash (.header h)).data.length < h.difficulty) :
    proof_of_work hash (fuel + 1) h = .panicked := by
  rw [proof_of_work_unfold, if_neg (by omega)]

/-- The sealing loop mutates only the nonce: every other header field of a
successfully sealed header equals the input's. -/
theorem proof_of_work_fields (hash : HashInput → String) :
    ∀ (fuel : Nat) (h h' : Blockheader), proof_of_work hash fuel h = .ok h' →
      h'.timestamp = h.timestamp ∧ h'.pre_hash = h.pre_hash ∧
      h'.merkle = h.merkle ∧ h'.difficulty = h.difficulty := by
  intro fuel
  induction fuel with
  | zero => intro h h' hok; exact absurd hok (by simp [proof_of_work])
  | succ fuel ih =>
    intro h h' hok
    rw [proof_of_work_unfold] at hok
    split at hok
    · split at hok
      · cases hok
        exact ⟨rfl, rfl, rfl, rfl⟩
      · have := ih _ _ hok
        simpa [bumpNonce] using this
    · cases hok

/-- A header with difficulty `0` never seals: the empty slice fails to parse
at every iteration, so the loop exhausts any amount of fuel. -/
theorem proof_of_work_difficulty_zero (hash : HashInput → String) :
    ∀ (fuel : Nat) (h : Blockheader), h.difficulty = 0 →
      proof_of_work hash fuel h = .timeout := by
  intro fuel
  induction fuel with
  | zero => intro h _; rfl
  | succ fuel ih =>
    intro h h0
    rw [proof_of_work_unfold, h0, if_pos (Nat.zero_le _)]
    have hp : parseU32 (strTake (hash (.header h)) 0) = none :=
      parseU32_empty _ (by simp [strTake])
    rw [hp]
    exact ih (bumpNonce h) (by simpa [bumpNonce] using h0)

/-- With fuel at least the list length, the Merkle loop cannot exhaust fuel:
on a non-empty list it returns a digest. -/
theorem merkleLoop_isSome (hash : HashInput → String) :
    ∀ (fuel : Nat) (l : List String), l ≠ [] → l.length ≤ fuel + 1 →
      (merkleLoop hash fuel l).isSome = true := by
  intro fuel
  induction fuel with
  | zero =>
    intro l hne hlen
    match l with
    | [] => exact absurd rfl hne
    | [x] => rfl
    | x :: y :: rest => simp at hlen
  | succ fuel ih =>
    intro l hne hlen
    match l with
    | [] => exact absurd rfl hne
    | [x] => rfl
    | x :: y :: rest =>
      show (merkleLoop hash fuel (rest ++ [hash (.str (x ++ y))])).isSome = true
      apply ih
      · simp
      · simp only [List.length_append, List.length_cons, List.length_nil] at hlen ⊢
        omega

/-- `get_merkle` on the empty list panics (models `pop().unwrap()` on an
empty vector). -/
theorem get_merkle_nil (hash : HashInput → String) :
    get_merkle hash [] = none := rfl

/-- Definitional unfolding of `get_merkle`. -/
theorem get_merkle_unfold (hash : HashInput → String)
    (txs : List Transaction) :
    get_merkle hash txs =
      match (if (txs.map (fun t => hash (.tx t))).length % 2 = 1 then
               match (txs.map (fun t => hash (.tx t))).getLast? with
               | some last => some (txs.map (fun t => hash (.tx t)) ++ [last])
               | none => none
             else some (txs.map (fun t => hash (.tx t)))) with
      | none => none
      | some m => merkleLoop hash m.length m := rfl

/-- `get_merkle` on a non-empty list returns a digest. -/
theorem get_merkle_isSome (hash : HashInput → String)
    (txs : List Transaction) (hne : txs ≠ []) :
    (get_merkle hash txs).isSome = true := by
  rw [get_merkle_unfold]
  have hmne : txs.map (fun t => hash (.tx t)) ≠ [] := by
    simpa using hne
  by_cases hodd : (txs.map (fun t => hash (.tx t))).length % 2 = 1
  · rw [if_pos hodd, List.getLast?_eq_getLast _ hmne]
    apply merkleLoop_isSome
    · simp
    · omega
  · rw [if_neg hodd]
    apply merkleLoop_isSome
    · exact hmne
    · omega

/-- Reference queue reduction following the specification's words: repeatedly
remove the two front-most digests, hash the concatenation `first + second`,
and append the result to the back, until exactly one digest remains. -/
def specReduce (hash : HashInput → String) : List String → Option String
  | [] => none
  | [x] => some x
  | x :: y :: rest => specReduce hash (rest ++ [hash (.str (x ++ y))])
termination_by l => l.length
decreasing_by simp [List.length_append]

/-- Reference Merkle root following the specification's words: hash each
transaction in order into a working list, append a duplicate of the last
digest once exactly when the list length is odd, then reduce the queue. -/
def merkle_root_spec (hash : HashInput → String)
    (txs : List Transaction) : Option String :=
  let ds := txs.map (fun t => hash (.tx t))
  specReduce hash (if ds.length % 2 = 1 then ds ++ ds.getLast?.toList else ds)

/-- The fuelled loop agrees with the reference reduction whenever the fuel
covers the list length. -/
theorem merkleLoop_eq_specReduce (hash : HashInput → String) :
    ∀ (fuel : Nat) (l : List String), l.length ≤ fuel + 1 →
      merkleLoop hash fuel l = specReduce hash l := by
  intro fuel
  induction fuel with
  | zero =>
    intro l hlen
    match l with
    | [] => simp [merkleLoop, specReduce]
    | [x] => simp [merkleLoop, specReduce]
    | x :: y :: rest => simp at hlen
  | succ fuel ih =>
    intro l hlen
    match l with
    | [] => simp [merkleLoop, specReduce]
    | [x] => simp [merkleLoop, specReduce]
    | x :: y :: rest =>
      show merkleLoop hash fuel (rest ++ [hash (.str (x ++ y))]) =
        specReduce hash (x :: y :: rest)
      rw [ih _ (by simp only [List.length_append, List.length_cons,
        List.length_nil] at hlen ⊢; omega)]
      conv_rhs => rw [specReduce]

/-- Definitional unfolding of `generate_new_block`. -/
theorem generate_new_block_unfold (hash : HashInput → String) (fuel : Nat)
    (ts : Int) (c : Chain) :
    generate_new_block hash fuel ts c =
      match get_merkle hash (⟨"Root", c.miner_addr, c.reward⟩ :: c.curr_trans)
      with
      | none => .panicked
      | some mkl =>
          match proof_of_work hash fuel
              { timestamp := ts, nonce := 0, pre_hash := last_hash hash c,
                merkle := mkl, difficulty := c.difficulty } with
          | .ok h' =>
              .ok ({ c with
                      chain := c.chain ++
                        [{ header := h',
                           count := (⟨"Root", c.miner_addr, c.reward⟩ ::
                             c.curr_trans).length % 2 ^ 32,
                           transactions := ⟨"Root", c.miner_addr, c.reward⟩ ::
                             c.curr_trans }],
                      curr_trans := [] }, true)
          | .panicked => .panicked
          | .timeout => .timeout := rfl

/-- Shape of a successful `generate_new_block`: one block is appended, built
from the reward transaction followed by the drained pending buffer, the
pending buffer is emptied, the chain parameters are untouched, the result is
`true`, and the new header keeps the pre-sealing linking fields. -/
theorem generate_ok_shape (hash : HashInput → String) (fuel : Nat) (ts : Int)
    (c : Chain) (res : Chain × Bool)
    (hg : generate_new_block hash fuel ts c = .ok res) :
    ∃ h' : Blockheader,
      res.1.chain = c.chain ++
        [{ header := h',
           count := (c.curr_trans.length + 1) % 2 ^ 32,
           transactions := ⟨"Root", c.miner_addr, c.reward⟩ :: c.curr_trans }]
      ∧ res.1.curr_trans = []
      ∧ res.1.difficulty = c.difficulty
      ∧ res.1.miner_addr = c.miner_addr
      ∧ res.1.reward = c.reward
      ∧ res.2 = true
      ∧ h'.pre_hash = last_hash hash c
      ∧ h'.difficulty = c.difficulty
      ∧ h'.timestamp = ts := by
  rw [generate_new_block_unfold] at hg
  split at hg
  · cases hg
  · split at hg
    · next h' hpow =>
      cases hg
      have hf := proof_of_work_fields hash fuel _ h' hpow
      refine ⟨h', ?_, rfl, rfl, rfl, rfl, rfl, ?_, ?_, ?_⟩
      · simp
      · exact hf.2.1
      · exact hf.2.2.2
      · exact hf.1
    · cases hg
    · cases hg

/-- Hash-linking property of a block list: each block's `pre_hash` is the
digest of the immediately preceding block's header. -/
def HashLinked (hash : HashInput → String) (l : List Block) : Prop :=
  ∀ i : Nat, (h : i + 1 < l.length) →
    (l.get ⟨i + 1, h⟩).header.pre_hash =
      hash (.header (l.get ⟨i, Nat.lt_of_succ_lt h⟩).header)

/-- A list of at most one block is trivially hash-linked. -/
theorem hashLinked_short (hash : HashInput → String) (l : List Block)
    (hl : l.length ≤ 1) : HashLinked hash l := by
  intro i hi
  omega

/-- Appending a block whose `pre_hash` is the digest of the current last
header preserves hash-linking. -/
theorem hashLinked_append (hash : HashInput → String) (l : List Block)
    (b : Block) (hl : HashLinked hash l)
    (hb : ∀ hne : l ≠ [],
      b.header.pre_hash = hash (.header (l.getLast hne).header)) :
    HashLinked hash (l ++ [b]) := by
  intro i hi
  have hlen : (l ++ [b]).length = l.length + 1 := by simp
  rw [hlen] at hi
  simp only [List.get_eq_getElem]
  by_cases hlt : i + 1 < l.length
  · rw [List.getElem_append_left hlt,
      List.getElem_append_left (Nat.lt_of_succ_lt hlt)]
    have := hl i hlt
    simpa [List.get_eq_getElem] using this
  · have hil : i + 1 = l.length := by omega
    have hne : l ≠ [] := by
      intro hnil
      rw [hnil] at hil
      simp at hil
    rw [List.getElem_append_right (by omega : l.length ≤ i + 1),
      List.getElem_append_left (by omega : i < l.length)]
    have hb' := hb hne
    rw [List.getLast_eq_getElem] at hb'
    have hidx : i + 1 - l.length = 0 := by omega
    simp only [hidx, List.getElem_cons_zero]
    simp only [show l.length - 1 = i by omega] at hb'
    exact hb'

/-- The `last_hash` of a chain with at least one block is the digest of the
last block's header. -/
theorem last_hash_ne_nil (hash : HashInput → String) (c : Chain)
    (hne : c.chain ≠ []) :
    last_hash hash c = hash (.header (c.chain.getLast hne).header) := by
  unfold last_hash
  rw [List.getLast?_eq_getLast _ hne]

/-- The `last_hash` of an empty chain is the 64-character `'0'` sentinel. -/
theorem last_hash_nil (hash : HashInput → String) (c : Chain)
    (hnil : c.chain = []) :
    last_hash hash c = String.mk (List.replicate 64 '0') := by
  unfold last_hash
  rw [hnil]
  rfl

/-- Definitional unfolding of `Chain.new`. -/
theorem chain_new_unfold (hash : HashInput → String) (fuel : Nat) (ts : Int)
    (addr : String) (diff : Nat) :
    Chain.new hash fuel ts addr diff =
      match generate_new_block hash fuel ts
          { chain := [], curr_trans := [], difficulty := diff,
            miner_addr := addr, reward := 100 } with
      | .ok res => .ok res.1
      | .panicked => .panicked
      | .timeout => .timeout := rfl

/-- Every chain reachable through the public operations is hash-linked. -/
theorem reachable_hashLinked (hash : HashInput → String) (c : Chain)
    (hr : Reachable hash c) : HashLinked hash c.chain := by
  induction hr with
  | init fuel ts addr diff c h =>
    rw [chain_new_unfold] at h
    split at h
    · next res hgen =>
      cases h
      obtain ⟨h', hchain, -⟩ := generate_ok_shape hash fuel ts _ res hgen
      rw [hchain]
      exact hashLinked_short hash _ (by simp)
    · cases h
    · cases h
  | tx c s r a hr ih => exact ih
  | diff c d hr ih => exact ih
  | rew c v hr ih => exact ih
  | gen c fuel ts res hr hgen ih =>
    obtain ⟨h', hchain, -, -, -, -, -, hpre, -, -⟩ :=
      generate_ok_shape hash fuel ts c res hgen
    rw [hchain]
    apply hashLinked_append hash c.chain _ ih
    intro hne
    rw [hpre, last_hash_ne_nil hash c hne]

/-- `submitAll` on the empty argument list is the identity. -/
theorem submitAll_nil (c : Chain) : submitAll [] c = c := rfl

/-- `submitAll` peels one `new_transaction` call at a time. -/
theorem submitAll_cons (t : String × String × Rat)
    (l : List (String × String × Rat)) (c : Chain) :
    submitAll (t :: l) c = submitAll l (new_transaction t.1 t.2.1 t.2.2 c).1 :=
  rfl

/-- A sequence of `submit_transaction` calls appends the submitted
transactions to the pending buffer in submission order and leaves every other
chain field unchanged. -/
theorem submitAll_fields (l : List (String × String × Rat)) (c : Chain) :
    (submitAll l c).curr_trans =
        c.curr_trans ++ l.map (fun t => ⟨t.1, t.2.1, t.2.2⟩)
      ∧ (submitAll l c).chain = c.chain
      ∧ (submitAll l c).difficulty = c.difficulty
      ∧ (submitAll l c).miner_addr = c.miner_addr
      ∧ (submitAll l c).reward = c.reward := by
  induction l generalizing c with
  | nil => simp [submitAll_nil]
  | cons t l ih =>
    rw [submitAll_cons]
    obtain ⟨h1, h2, h3, h4, h5⟩ := ih (new_transaction t.1 t.2.1 t.2.2 c).1
    refine ⟨?_, ?_, ?_, ?_, ?_⟩
    · rw [h1]; simp [new_transaction]
    · rw [h2]; rfl
    · rw [h3]; rfl
    · rw [h4]; rfl
    · rw [h5]; rfl

/-- A concrete digest function used to instantiate the parametric
development: every record hashes to the string `"0"`. -/
def hash0 : HashInput → String := fun _ => "0"

/-- Under `hash0`, the Merkle loop maps any non-empty all-`"0"` queue to
`"0"`. -/
theorem merkleLoop_replicate_zero :
    ∀ (fuel n : Nat), 1 ≤ n → n ≤ fuel + 1 →
      merkleLoop hash0 fuel (List.replicate n "0") = some "0" := by
  intro fuel
  induction fuel with
  | zero =>
    intro n h1 h2
    have hn : n = 1 := by omega
    subst hn
    rfl
  | succ fuel ih =>
    intro n h1 h2
    match n with
    | 1 => rfl
    | n + 2 =>
      rw [show List.replicate (n + 2) "0" = "0" :: "0" :: List.replicate n "0"
        by simp [List.replicate_succ]]
      show merkleLoop hash0 fuel
        (List.replicate n "0" ++ [hash0 (.str ("0" ++ "0"))]) = some "0"
      rw [show List.replicate n "0" ++ [hash0 (.str ("0" ++ "0"))] =
        List.replicate (n + 1) "0" by simp [hash0, List.replicate_succ']]
      exact ih (n + 1) (by omega) (by omega)

/-- Under `hash0`, `get_merkle` of any non-empty transaction list is `"0"`. -/
theorem get_merkle_hash0 (txs : List Transaction) (hne : txs ≠ []) :
    get_merkle hash0 txs = some "0" := by
  rw [get_merkle_unfold]
  have hmap : txs.map (fun t => hash0 (.tx t)) =
      List.replicate txs.length "0" := List.map_const' txs "0"
  rw [hmap]
  have hlpos : 1 ≤ txs.length := by
    cases txs with
    | nil => exact absurd rfl hne
    | cons a l => simp
  rw [List.getLast?_replicate, if_neg (by omega : ¬txs.length = 0)]
  by_cases hodd : (List.replicate txs.length "0").length % 2 = 1
  · rw [if_pos hodd]
    show merkleLoop hash0 (List.replicate txs.length "0" ++ ["0"]).length
      (List.replicate txs.length "0" ++ ["0"]) = some "0"
    rw [show List.replicate txs.length "0" ++ ["0"] =
      List.replicate (txs.length + 1) "0" from
        (List.replicate_succ' _ _).symm, List.length_replicate]
    exact merkleLoop_replicate_zero _ _ (by omega) (by omega)
  · rw [if_neg hodd]
    show merkleLoop hash0 (List.replicate txs.length "0").length
      (List.replicate txs.length "0") = some "0"
    rw [List.length_replicate]
    exact merkleLoop_replicate_zero _ _ (by omega) (by omega)

/-- A byte below 16 renders as a single hex character. -/
theorem byteHex_lt (b : Nat) (hb : b < 16) : byteHex b = [hexDigit b] := by
  unfold byteHex
  rw [if_pos hb]

/-- A byte of 16 or above renders as two hex characters. -/
theorem byteHex_ge (b : Nat) (hb : 16 ≤ b) :
    byteHex b = [hexDigit (b / 16), hexDigit (b % 16)] := by
  unfold byteHex
  rw [if_neg (by omega)]

/-- The rendered length of one byte: one character below 16, two otherwise. -/
theorem byteHex_length (b : Nat) :
    (byteHex b).length = if b < 16 then 1 else 2 := by
  unfold byteHex
  by_cases hb : b < 16
  · rw [if_pos hb, if_pos hb]; rfl
  · rw [if_neg hb, if_neg hb]; rfl

/-- Every `hexDigit` of a value below 16 is a lowercase hex character. -/
theorem isHexChar_hexDigit (n : Nat) (hn : n < 16) :
    isHexChar (hexDigit n) = true := by
  interval_cases n <;> decide

/-- Every character rendered for a byte below 256 is a lowercase hex
character. -/
theorem byteHex_chars_hex (b : Nat) (hb : b < 256) :
    ∀ ch ∈ byteHex b, isHexChar ch = true := by
  intro ch hch
  by_cases hlt : b < 16
  · rw [byteHex_lt b hlt] at hch
    rcases List.mem_singleton.mp hch with rfl
    exact isHexChar_hexDigit b hlt
  · rw [byteHex_ge b (by omega)] at hch
    rcases List.mem_cons.mp hch with rfl | hch
    · exact isHexChar_hexDigit _ (by omega)
    · rcases List.mem_singleton.mp hch with rfl
      exact isHexChar_hexDigit _ (by omega)

/-- Length of the full rendering: two characters per byte, minus one for each
byte below 16 (no zero padding). -/
theorem hex_to_string_length (bytes : List Nat) :
    (hex_to_string bytes).data.length =
      2 * bytes.length - bytes.countP (fun b => decide (b < 16)) := by
  induction bytes with
  | nil => rfl
  | cons b bs ih =>
    have hc : (b :: bs).countP (fun b => decide (b < 16)) =
        bs.countP (fun b => decide (b < 16)) + if b < 16 then 1 else 0 := by
      rw [List.countP_cons]
      by_cases hb : b < 16 <;> simp [hb]
    have hlen : (hex_to_string (b :: bs)).data.length =
        (byteHex b).length + (hex_to_string bs).data.length := by
      simp [hex_to_string]
    rw [hlen, ih, byteHex_length, hc]
    have hb2 := List.countP_le_length (fun b => decide (b < 16)) (l := bs)
    simp only [List.length_cons]
    by_cases hb : b < 16
    · rw [if_pos hb, if_pos hb]; omega
    · rw [if_neg hb, if_neg hb]; omega

/-- Every character of a rendered byte string is a lowercase hex character. -/
theorem hex_to_string_chars (bytes : List Nat) (hb : ∀ b ∈ bytes, b < 256) :
    ∀ ch ∈ (hex_to_string bytes).data, isHexChar ch = true := by
  intro ch hch
  have : ch ∈ bytes.flatMap byteHex := hch
  obtain ⟨b, hbm, hchb⟩ := List.mem_flatMap.mp this
  exact byteHex_chars_hex b (hb b hbm) ch hchb

/-- Extracts the chain of a successful run; an arbitrary default otherwise. -/
def chainOk (r : RunRes Chain) : Chain :=
  match r with
  | .ok c => c
  | _ => { chain := [], curr_trans := [], difficulty := 0,
           miner_addr := "", reward := 0 }

/-- Concrete genesis chain produced by `Chain.new` under `hash0` with miner
address `"m"` and difficulty 1. -/
def cW0 : Chain := chainOk (Chain.new hash0 1 0 "m" 1)

/-- Result of one further `generate_new_block` on `cW0`. -/
def resW : Chain × Bool :=
  match generate_new_block hash0 1 0 cW0 with
  | .ok r => r
  | _ => ({ chain := [], curr_trans := [], difficulty := 0,
            miner_addr := "", reward := 0 }, false)

/-- Concrete two-block chain reachable under `hash0`. -/
def cW : Chain := resW.1

/-- The concrete two-block chain is reachable. -/
theorem cW_reachable : Reachable hash0 cW :=
  Reachable.gen cW0 1 0 resW (Reachable.init 1 0 "m" 1 cW0 rfl) rfl

/-- The concrete two-block chain has two blocks. -/
theorem cW_length : 1 < cW.chain.length := by decide

/-- C1: for every chain reachable through the public operations that holds at
least two blocks, the block at each position `i ≥ 1` has `pre_hash` equal to
the digest of the header of the block at position `i - 1`. -/
theorem C1_previous_digest_linked (hash : HashInput → String) (c : Chain)
    (hr : Reachable hash c) (i : Nat) (h1 : 1 ≤ i) (hi : i < c.chain.length) :
    (c.chain.get ⟨i, hi⟩).header.pre_hash =
      hash (.header (c.chain.get ⟨i - 1,
        Nat.lt_of_le_of_lt (Nat.sub_le i 1) hi⟩).header) := by
  have hl := reachable_hashLinked hash c hr
  obtain ⟨j, rfl⟩ : ∃ j, i = j + 1 := ⟨i - 1, by omega⟩
  have hj := hl j hi
  simp only [List.get_eq_getElem] at hj ⊢
  simp only [Nat.add_sub_cancel]
  exact hj

/-- C1 witness: the concrete two-block chain `cW` is reachable and its second
block links to the digest of the first block's header. -/
theorem C1_witness :
    1 ≤ 1 ∧
      (cW.chain.get ⟨1, cW_length⟩).header.pre_hash =
        hash0 (.header (cW.chain.get ⟨1 - 1,
          Nat.lt_of_le_of_lt (Nat.sub_le 1 1) cW_length⟩).header) :=
  ⟨Nat.le_refl 1,
    C1_previous_digest_linked hash0 cW cW_reachable 1 (Nat.le_refl 1)
      cW_length⟩

/-- C2 (amended): after any sequence of `submit_transaction` calls, a
successful `generate_block` appends a block whose transaction list is one
reward transaction (miner and reward taken at call time) followed by the
pending transactions in submission order, empties the pending buffer, and
sets `transaction_count` to the list length reduced modulo `2 ^ 32` (equal to
the length whenever it is below `2 ^ 32`). -/
theorem C2_generate_block_contents (hash : HashInput → String) (c : Chain)
    (l : List (String × String × Rat)) (fuel : Nat) (ts : Int)
    (res : Chain × Bool)
    (hg : generate_new_block hash fuel ts (submitAll l c) = .ok res) :
    ∃ blk : Block,
      res.1.chain = c.chain ++ [blk]
      ∧ blk.transactions =
          ⟨"Root", c.miner_addr, c.reward⟩ ::
            (c.curr_trans ++ l.map (fun t => ⟨t.1, t.2.1, t.2.2⟩))
      ∧ res.1.curr_trans = []
      ∧ blk.count = blk.transactions.length % 2 ^ 32 := by
  obtain ⟨hct, hch, hd, hm, hrw⟩ := submitAll_fields l c
  obtain ⟨h', hchain, hcurr, -, -, -, -, -, -, -⟩ :=
    generate_ok_shape hash fuel ts (submitAll l c) res hg
  refine ⟨_, by rw [hchain, hch], ?_, hcurr, ?_⟩
  · show (⟨"Root", (submitAll l c).miner_addr, (submitAll l c).reward⟩ :
        Transaction) :: (submitAll l c).curr_trans = _
    rw [hct, hm, hrw]
  · show ((submitAll l c).curr_trans.length + 1) % 2 ^ 32 =
      ((⟨"Root", (submitAll l c).miner_addr, (submitAll l c).reward⟩ :
        Transaction) :: (submitAll l c).curr_trans).length % 2 ^ 32
    simp

/-- A pending transaction used in concrete instantiations. -/
def tx0 : Transaction := ⟨"a", "b", 1⟩

/-- A chain state holding `2 ^ 32` pending transactions. -/
def cBig : Chain :=
  { chain := [], curr_trans := List.replicate (2 ^ 32) tx0, difficulty := 1,
    miner_addr := "m", reward := 100 }

/-- The block generated from `cBig` under `hash0`. -/
def blkBig : Block :=
  { header := { timestamp := 0, nonce := 0,
                pre_hash := String.mk (List.replicate 64 '0'),
                merkle := "0", difficulty := 1 },
    count := (2 ^ 32 + 1) % 2 ^ 32,
    transactions := ⟨"Root", "m", 100⟩ :: List.replicate (2 ^ 32) tx0 }

set_option maxRecDepth 4096 in
/-- C2 counterexample: generating a block from a chain state with `2 ^ 32`
pending transactions succeeds, but the new block's `transaction_count`
(`len() as u32`) differs from the length of its transaction list. -/
theorem C2_counterexample :
    generate_new_block hash0 1 0 cBig =
        .ok ({ chain := [blkBig], curr_trans := [], difficulty := 1,
               miner_addr := "m", reward := 100 }, true)
      ∧ blkBig.count ≠ blkBig.transactions.length := by
  constructor
  · have hmk := get_merkle_hash0
      ((⟨"Root", cBig.miner_addr, cBig.reward⟩ : Transaction) ::
        cBig.curr_trans) (List.cons_ne_nil _ _)
    have h1 : generate_new_block hash0 1 0 cBig =
        .ok (({ chain :=
                  cBig.chain ++
                    [⟨⟨0, 0, last_hash hash0 cBig, "0", cBig.difficulty⟩,
                      ((⟨"Root", cBig.miner_addr, cBig.reward⟩ :
                        Transaction) :: cBig.curr_trans).length % 2 ^ 32,
                      ⟨"Root", cBig.miner_addr, cBig.reward⟩ ::
                        cBig.curr_trans⟩],
                curr_trans := [], difficulty := cBig.difficulty,
                miner_addr := cBig.miner_addr,
                reward := cBig.reward } : Chain), true) := by
      rw [generate_new_block_unfold, hmk]
      rfl
    have hcl : cBig.curr_trans = List.replicate (2 ^ 32) tx0 := rfl
    have hc : ((⟨"Root", cBig.miner_addr, cBig.reward⟩ : Transaction) ::
        cBig.curr_trans).length % 2 ^ 32 = (2 ^ 32 + 1) % 2 ^ 32 := by
      rw [hcl, List.length_cons, List.length_replicate]
    rw [hc] at h1
    exact h1
  · have hbt : blkBig.transactions =
        (⟨"Root", "m", 100⟩ : Transaction) ::
          List.replicate (2 ^ 32) tx0 := rfl
    have hbc : blkBig.count = (2 ^ 32 + 1) % 2 ^ 32 := rfl
    rw [hbt, hbc, List.length_cons, List.length_replicate,
      Nat.add_mod_left]
    omega

/-- The chain and flag produced by submitting one transaction to `cW0` and
generating a block under `hash0`. -/
def resS : Chain × Bool :=
  match generate_new_block hash0 1 0 (submitAll [("s", "r", 2)] cW0) with
  | .ok r => r
  | _ => ({ chain := [], curr_trans := [], difficulty := 0,
            miner_addr := "", reward := 0 }, false)

/-- C2 witness: one concrete submission followed by a successful generation,
with the amended description of the appended block. -/
theorem C2_witness :
    generate_new_block hash0 1 0 (submitAll [("s", "r", 2)] cW0) = .ok resS
    ∧ ∃ blk : Block,
        resS.1.chain = cW0.chain ++ [blk]
        ∧ blk.transactions =
            ⟨"Root", cW0.miner_addr, cW0.reward⟩ ::
              (cW0.curr_trans ++
                [(("s", "r", 2) : String × String × Rat)].map
                  (fun t => ⟨t.1, t.2.1, t.2.2⟩))
        ∧ resS.1.curr_trans = []
        ∧ blk.count = blk.transactions.length % 2 ^ 32 :=
  ⟨rfl, C2_generate_block_contents hash0 cW0 [("s", "r", 2)] 1 0 resS rfl⟩

/-- `get_merkle` agrees with the specification's queue reduction on every
non-empty input. -/
theorem get_merkle_eq_spec (hash : HashInput → String)
    (txs : List Transaction) (hne : txs ≠ []) :
    get_merkle hash txs = merkle_root_spec hash txs := by
  have hspec : merkle_root_spec hash txs =
      specReduce hash
        (if (txs.map (fun t => hash (.tx t))).length % 2 = 1 then
          txs.map (fun t => hash (.tx t)) ++
            (txs.map (fun t => hash (.tx t))).getLast?.toList
         else txs.map (fun t => hash (.tx t))) := rfl
  rw [get_merkle_unfold, hspec]
  have hmne : txs.map (fun t => hash (.tx t)) ≠ [] := by simpa using hne
  by_cases hodd : (txs.map (fun t => hash (.tx t))).length % 2 = 1
  · rw [if_pos hodd, if_pos hodd, List.getLast?_eq_getLast _ hmne]
    exact merkleLoop_eq_specReduce hash _ _ (Nat.le_succ _)
  · rw [if_neg hodd, if_neg hodd]
    exact merkleLoop_eq_specReduce hash _ _ (Nat.le_succ _)

/-- C3: on every non-empty input, `get_merkle` computes exactly the
spec-described reduction (hash each transaction in order, duplicate the last
digest once iff the count is odd, then fold the queue pairwise); in
particular a single transaction `A` yields `hash (hash A ++ hash A)`. -/
theorem C3_merkle_reduction (hash : HashInput → String)
    (txs : List Transaction) (hne : txs ≠ []) (A : Transaction) :
    get_merkle hash txs = merkle_root_spec hash txs
    ∧ get_merkle hash [A] =
        some (hash (.str (hash (.tx A) ++ hash (.tx A)))) :=
  ⟨get_merkle_eq_spec hash txs hne, rfl⟩

/-- C3 witness: the reduction evaluated on the one-element list `[tx0]`. -/
theorem C3_witness :
    ([tx0] : List Transaction) ≠ [] ∧
      (get_merkle hash0 [tx0] = merkle_root_spec hash0 [tx0]
       ∧ get_merkle hash0 [tx0] =
          some (hash0 (.str (hash0 (.tx tx0) ++ hash0 (.tx tx0))))) :=
  ⟨List.cons_ne_nil _ _,
    C3_merkle_reduction hash0 [tx0] (List.cons_ne_nil _ _) tx0⟩

/-- C4 (amended): over a hex digest, for a difficulty between 1 and the
digest length, one sealing iteration accepts exactly when the first
`difficulty` characters are `difficulty` copies of `'0'`; acceptance stops
the loop at the current nonce, and rejection (a nonzero all-digit prefix such
as `"123"` just like an unparsable prefix such as `"1a0"`) bumps the nonce
and retries.  (At difficulty 0 the claim fails: see the counterexample.) -/
theorem C4_pow_predicate (hash : HashInput → String) (h : Blockheader)
    (fuel : Nat) (hd1 : 1 ≤ h.difficulty)
    (hdl : h.difficulty ≤ (hash (.header h)).data.length)
    (hhex : ∀ ch ∈ (hash (.header h)).data, isHexChar ch = true) :
    (powAccept hash h = true ↔
      (strTake (hash (.header h)) h.difficulty).data =
        List.replicate h.difficulty '0')
    ∧ (powAccept hash h = true → proof_of_work hash (fuel + 1) h = .ok h)
    ∧ (powAccept hash h = false →
        proof_of_work hash (fuel + 1) h =
          proof_of_work hash fuel (bumpNonce h)) := by
  have htlen : (strTake (hash (.header h)) h.difficulty).data.length =
      h.difficulty := by
    rw [strTake_data, List.length_take, min_eq_left hdl]
  have htne : (strTake (hash (.header h)) h.difficulty).data ≠ [] := by
    intro hemp
    rw [hemp] at htlen
    simp only [List.length_nil] at htlen
    omega
  have hthex : ∀ c ∈ (strTake (hash (.header h)) h.difficulty).data,
      isHexChar c = true := by
    rw [strTake_data]
    intro c hc
    exact hhex c (List.mem_of_mem_take hc)
  refine ⟨?_, ?_, ?_⟩
  · rw [powAccept_iff_parse, parseU32_eq_some_zero_iff _ htne hthex]
    constructor
    · intro hall
      apply List.eq_replicate_iff.mpr
      exact ⟨htlen, hall⟩
    · intro hrep
      rw [hrep]
      intro c hc
      exact List.eq_of_mem_replicate hc
  · intro hacc
    rw [proof_of_work_succ hash fuel h hdl, if_pos hacc]
  · intro hacc
    rw [proof_of_work_succ hash fuel h hdl, if_neg (by simp [hacc])]

/-- A header with difficulty 0 (reachable via `update_difficulty(0)` or
`Chain::new(_, 0)`). -/
def hD0 : Blockheader :=
  { timestamp := 0, nonce := 0, pre_hash := "", merkle := "", difficulty := 0 }

/-- C4 counterexample: at difficulty 0 the digest prefix is exactly
`difficulty` copies of `'0'` (the empty prefix), yet the sealing loop does
not stop — the empty slice fails to parse, so the nonce is bumped forever. -/
theorem C4_counterexample :
    hD0.difficulty ≤ (hash0 (.header hD0)).data.length
    ∧ (∀ ch ∈ (hash0 (.header hD0)).data, isHexChar ch = true)
    ∧ (strTake (hash0 (.header hD0)) hD0.difficulty).data =
        List.replicate hD0.difficulty '0'
    ∧ powAccept hash0 hD0 = false
    ∧ proof_of_work hash0 (5 + 1) hD0 ≠ .ok hD0 := by
  refine ⟨by decide, by decide, by decide, by decide, by decide⟩

/-- A concrete header with difficulty 1 used to instantiate C4. -/
def cW0hdr : Blockheader :=
  { timestamp := 0, nonce := 0, pre_hash := "", merkle := "0",
    difficulty := 1 }

/-- C4 witness: a concrete hex digest `"0"` at difficulty 1 is accepted and
the loop stops at the current nonce. -/
theorem C4_witness :
    1 ≤ cW0hdr.difficulty
    ∧ cW0hdr.difficulty ≤ (hash0 (.header cW0hdr)).data.length
    ∧ (∀ ch ∈ (hash0 (.header cW0hdr)).data, isHexChar ch = true)
    ∧ ((powAccept hash0 cW0hdr = true ↔
        (strTake (hash0 (.header cW0hdr)) cW0hdr.difficulty).data =
          List.replicate cW0hdr.difficulty '0')
       ∧ (powAccept hash0 cW0hdr = true →
          proof_of_work hash0 (3 + 1) cW0hdr = .ok cW0hdr)
       ∧ (powAccept hash0 cW0hdr = false →
          proof_of_work hash0 (3 + 1) cW0hdr =
            proof_of_work hash0 3 (bumpNonce cW0hdr))) :=
  ⟨by decide, by decide, by decide,
    C4_pow_predicate hash0 cW0hdr 3 (by decide) (by decide) (by decide)⟩

/-- A chain with no blocks (the transient state inside `Chain::new` before
the genesis block is generated). -/
def cEmpty : Chain :=
  { chain := [], curr_trans := [], difficulty := 1, miner_addr := "m",
    reward := 100 }

/-- The two-block chain `cW` is non-empty. -/
theorem cW_ne : cW.chain ≠ [] := by decide

/-- C5: on an empty block list, `last_hash` returns the hand-written sentinel
of exactly 64 ASCII `'0'` characters; on a non-empty chain it returns the
digest of the last block's header. -/
theorem C5_last_hash (hash : HashInput → String) (c c' : Chain)
    (hnil : c.chain = []) (hne : c'.chain ≠ []) :
    last_hash hash c = String.mk (List.replicate 64 '0')
    ∧ (last_hash hash c).data.length = 64
    ∧ (∀ ch ∈ (last_hash hash c).data, ch = '0')
    ∧ last_hash hash c' = hash (.header (c'.chain.getLast hne).header) := by
  have h1 := last_hash_nil hash c hnil
  refine ⟨h1, ?_, ?_, last_hash_ne_nil hash c' hne⟩
  · rw [h1]
    show (List.replicate 64 '0').length = 64
    simp
  · rw [h1]
    intro ch hch
    exact List.eq_of_mem_replicate hch

/-- C5 witness: evaluated on the concrete empty chain and on the concrete
two-block chain. -/
theorem C5_witness :
    cEmpty.chain = [] ∧ cW.chain ≠ [] ∧
      (last_hash hash0 cEmpty = String.mk (List.replicate 64 '0')
       ∧ (last_hash hash0 cEmpty).data.length = 64
       ∧ (∀ ch ∈ (last_hash hash0 cEmpty).data, ch = '0')
       ∧ last_hash hash0 cW =
          hash0 (.header (cW.chain.getLast cW_ne).header)) :=
  ⟨rfl, cW_ne, C5_last_hash hash0 cEmpty cW rfl cW_ne⟩

/-- C6: the rendering maps each byte to unpadded lowercase hex (one character
below 16, two characters from 16 up), so a 32-byte digest renders to
`64 - #(bytes below 0x10)` characters, which is not fixed at 64. -/
theorem C6_hex_rendering (bytes : List Nat) (hb : ∀ b ∈ bytes, b < 256)
    (h32 : bytes.length = 32) :
    (∀ b ∈ bytes, (byteHex b).length = if b < 16 then 1 else 2)
    ∧ (∀ b ∈ bytes, b < 16 → byteHex b = [hexDigit b])
    ∧ (∀ b ∈ bytes, 16 ≤ b → byteHex b = [hexDigit (b / 16), hexDigit (b % 16)])
    ∧ (∀ b ∈ bytes, ∀ ch ∈ byteHex b, isHexChar ch = true)
    ∧ (hex_to_string bytes).data.length =
        64 - bytes.countP (fun b => decide (b < 16))
    ∧ (hex_to_string (List.replicate 32 0)).data.length ≠ 64 := by
  refine ⟨fun b _ => byteHex_length b, fun b _ => byteHex_lt b,
    fun b _ => byteHex_ge b, fun b hbm => byteHex_chars_hex b (hb b hbm),
    ?_, by decide⟩
  rw [hex_to_string_length, h32]

/-- C6 witness: the all-zero 32-byte digest renders to 32 characters. -/
theorem C6_witness :
    (∀ b ∈ List.replicate 32 0, b < 256) ∧ (List.replicate 32 0).length = 32
    ∧ ((∀ b ∈ List.replicate 32 0, (byteHex b).length = if b < 16 then 1 else 2)
       ∧ (∀ b ∈ List.replicate 32 0, b < 16 → byteHex b = [hexDigit b])
       ∧ (∀ b ∈ List.replicate 32 0, 16 ≤ b →
            byteHex b = [hexDigit (b / 16), hexDigit (b % 16)])
       ∧ (∀ b ∈ List.replicate 32 0, ∀ ch ∈ byteHex b, isHexChar ch = true)
       ∧ (hex_to_string (List.replicate 32 0)).data.length =
           64 - (List.replicate 32 0).countP (fun b => decide (b < 16))
       ∧ (hex_to_string (List.replicate 32 0)).data.length ≠ 64) :=
  ⟨by decide, by decide,
    C6_hex_rendering (List.replicate 32 0) (by decide) (by decide)⟩

/-- C7: `new_transaction` (with no validation of addresses or amount — the
amount ranges over all rationals, including zero and negatives),
`update_difficulty` and `update_reward` always return `true`, and a
completing `generate_new_block` returns `true`. -/
theorem C7_operations_return_true (hash : HashInput → String) (c : Chain)
    (s r : String) (a : Rat) (d : Nat) (v : Rat) (fuel : Nat) (ts : Int)
    (res : Chain × Bool)
    (hg : generate_new_block hash fuel ts c = .ok res) :
    (new_transaction s r a c).2 = true
    ∧ (new_transaction s r a c).1.curr_trans = c.curr_trans ++ [⟨s, r, a⟩]
    ∧ (update_difficulty d c).2 = true
    ∧ (update_reward v c).2 = true
    ∧ res.2 = true := by
  obtain ⟨h', -, -, -, -, -, htrue, -, -, -⟩ :=
    generate_ok_shape hash fuel ts c res hg
  exact ⟨rfl, rfl, rfl, rfl, htrue⟩

/-- C7 witness: evaluated with a negative amount on the concrete genesis
chain, together with a completing block generation. -/
theorem C7_witness :
    generate_new_block hash0 1 0 cW0 = .ok resW
    ∧ ((new_transaction "s" "r" (-5) cW0).2 = true
       ∧ (new_transaction "s" "r" (-5) cW0).1.curr_trans =
           cW0.curr_trans ++ [⟨"s", "r", -5⟩]
       ∧ (update_difficulty 2 cW0).2 = true
       ∧ (update_reward 0 cW0).2 = true
       ∧ resW.2 = true) :=
  ⟨rfl, C7_operations_return_true hash0 cW0 "s" "r" (-5) 2 0 1 0 resW rfl⟩

/-- Under a digest function whose digests are always at least as long as the
header's difficulty, the sealing loop never panics. -/
theorem proof_of_work_no_panic (hash : HashInput → String)
    (hdl : ∀ hdr : Blockheader,
      hdr.difficulty ≤ (hash (.header hdr)).data.length) :
    ∀ (fuel : Nat) (h : Blockheader),
      proof_of_work hash fuel h ≠ .panicked := by
  intro fuel
  induction fuel with
  | zero =>
    intro h hk
    exact RunRes.noConfusion hk
  | succ fuel ih =>
    intro h hk
    rw [proof_of_work_succ hash fuel h (hdl h)] at hk
    by_cases hacc : powAccept hash h = true
    · rw [if_pos hacc] at hk
      exact RunRes.noConfusion hk
    · rw [if_neg hacc] at hk
      exact ih _ hk

/-- Under the same digest-length condition, `generate_new_block` never
panics: its Merkle input is never empty, and sealing never panics. -/
theorem generate_no_panic (hash : HashInput → String)
    (hdl : ∀ hdr : Blockheader,
      hdr.difficulty ≤ (hash (.header hdr)).data.length) :
    ∀ (fuel : Nat) (ts : Int) (c : Chain),
      generate_new_block hash fuel ts c ≠ .panicked := by
  intro fuel ts c hk
  rw [generate_new_block_unfold] at hk
  have hm := get_merkle_isSome hash
    (⟨"Root", c.miner_addr, c.reward⟩ :: c.curr_trans) (List.cons_ne_nil _ _)
  split at hk
  · next heq => rw [heq] at hm; exact Bool.noConfusion hm
  · next mkl heq =>
    split at hk
    · exact RunRes.noConfusion hk
    · next hpow => exact proof_of_work_no_panic hash hdl _ _ hpow
    · exact RunRes.noConfusion hk

/-- C8 (amended): the only panics are the two precondition violations —
`get_merkle` panics exactly on the empty list, and sealing panics when the
difficulty exceeds the digest length — and under the preconditions no engine
operation panics (though `generate_block` need not terminate: see the
counterexample). -/
theorem C8_panic_conditions (hash hash2 : HashInput → String)
    (hdr2 : Blockheader) (fuel2 : Nat)
    (hbig : (hash2 (.header hdr2)).data.length < hdr2.difficulty)
    (hdl : ∀ hdr : Blockheader,
      hdr.difficulty ≤ (hash (.header hdr)).data.length) :
    (∀ txs : List Transaction, get_merkle hash txs = none ↔ txs = [])
    ∧ proof_of_work hash2 (fuel2 + 1) hdr2 = .panicked
    ∧ (∀ (fuel : Nat) (h : Blockheader),
        proof_of_work hash fuel h ≠ .panicked)
    ∧ (∀ (fuel : Nat) (ts : Int) (c : Chain),
        generate_new_block hash fuel ts c ≠ .panicked)
    ∧ (∀ (fuel : Nat) (ts : Int) (addr : String) (diff : Nat),
        Chain.new hash fuel ts addr diff ≠ .panicked) := by
  refine ⟨?_, proof_of_work_succ_panic hash2 fuel2 hdr2 hbig,
    proof_of_work_no_panic hash hdl, generate_no_panic hash hdl, ?_⟩
  · intro txs
    constructor
    · intro hnone
      by_contra hne
      have := get_merkle_isSome hash txs hne
      rw [hnone] at this
      exact Bool.noConfusion this
    · intro hnil
      rw [hnil]
      exact get_merkle_nil hash
  · intro fuel ts addr diff hk
    rw [chain_new_unfold] at hk
    split at hk
    · exact RunRes.noConfusion hk
    · next heq => exact generate_no_panic hash hdl fuel ts _ heq
    · exact RunRes.noConfusion hk

/-- A digest function whose header digests always match the difficulty in
length. -/
def hashW : HashInput → String :=
  fun i =>
    match i with
    | .header hdr => String.mk (List.replicate hdr.difficulty 'a')
    | _ => "a"

/-- `hashW` satisfies the digest-length precondition for every header. -/
theorem hashW_hdl : ∀ hdr : Blockheader,
    hdr.difficulty ≤ (hashW (.header hdr)).data.length := by
  intro hdr
  show hdr.difficulty ≤ (List.replicate hdr.difficulty 'a').length
  simp

/-- A digest function returning the empty string. -/
def hashE : HashInput → String := fun _ => ""

/-- A header with difficulty 1, whose `hashE` digest is too short. -/
def hB1 : Blockheader :=
  { timestamp := 0, nonce := 0, pre_hash := "", merkle := "", difficulty := 1 }

/-- C8 witness: concrete digest functions exercising both the out-of-range
panic and the panic-free operations. -/
theorem C8_witness :
    (hashE (.header hB1)).data.length < hB1.difficulty
    ∧ (∀ hdr : Blockheader,
        hdr.difficulty ≤ (hashW (.header hdr)).data.length)
    ∧ ((∀ txs : List Transaction, get_merkle hashW txs = none ↔ txs = [])
       ∧ proof_of_work hashE (3 + 1) hB1 = .panicked
       ∧ (∀ (fuel : Nat) (h : Blockheader),
           proof_of_work hashW fuel h ≠ .panicked)
       ∧ (∀ (fuel : Nat) (ts : Int) (c : Chain),
           generate_new_block hashW fuel ts c ≠ .panicked)
       ∧ (∀ (fuel : Nat) (ts : Int) (addr : String) (diff : Nat),
           Chain.new hashW fuel ts addr diff ≠ .panicked)) :=
  ⟨by decide, hashW_hdl,
    C8_panic_conditions hashW hashE hB1 3 (by decide) hashW_hdl⟩

/-- C8 counterexample: a difficulty-0 header satisfies the slice
precondition, yet sealing never completes — the loop exhausts every fuel
bound without panicking or returning, so "every engine operation completes"
fails. -/
theorem C8_counterexample :
    hD0.difficulty ≤ (hash0 (.header hD0)).data.length
    ∧ ∀ fuel : Nat, proof_of_work hash0 fuel hD0 = .timeout :=
  ⟨by decide, fun fuel => proof_of_work_difficulty_zero hash0 fuel hD0 rfl⟩

/-- C9: `update_reward` (and `update_difficulty`) replaces only its own
parameter — the block list, pending buffer and all other fields are
unchanged, so already-sealed blocks keep their recorded reward amounts — and
a subsequent successful `generate_block` appends a block whose reward
transaction carries the new value. -/
theorem C9_update_reward_frame (hash : HashInput → String) (c : Chain)
    (v : Rat) (d : Nat) (fuel : Nat) (ts : Int) (res : Chain × Bool)
    (hg : generate_new_block hash fuel ts (update_reward v c).1 = .ok res) :
    (update_reward v c).1.chain = c.chain
    ∧ (update_reward v c).1.curr_trans = c.curr_trans
    ∧ (update_reward v c).1.difficulty = c.difficulty
    ∧ (update_reward v c).1.miner_addr = c.miner_addr
    ∧ (update_reward v c).1.reward = v
    ∧ (update_difficulty d c).1.chain = c.chain
    ∧ (update_difficulty d c).1.curr_trans = c.curr_trans
    ∧ (update_difficulty d c).1.miner_addr = c.miner_addr
    ∧ (update_difficulty d c).1.reward = c.reward
    ∧ (update_difficulty d c).1.difficulty = d
    ∧ ∃ blk : Block, res.1.chain = c.chain ++ [blk]
        ∧ blk.transactions.head? = some ⟨"Root", c.miner_addr, v⟩ := by
  obtain ⟨h', hchain, -, -, -, -, -, -, -, -⟩ :=
    generate_ok_shape hash fuel ts (update_reward v c).1 res hg
  refine ⟨rfl, rfl, rfl, rfl, rfl, rfl, rfl, rfl, rfl, rfl, ?_⟩
  exact ⟨_, hchain, rfl⟩

/-- The result of generating a block after `update_reward 50` on the
concrete genesis chain. -/
def resR : Chain × Bool :=
  match generate_new_block hash0 1 0 (update_reward 50 cW0).1 with
  | .ok r => r
  | _ => ({ chain := [], curr_trans := [], difficulty := 0,
            miner_addr := "", reward := 0 }, false)

/-- C9 witness: `update_reward 50` then a successful generation on the
concrete genesis chain. -/
theorem C9_witness :
    generate_new_block hash0 1 0 (update_reward 50 cW0).1 = .ok resR
    ∧ ((update_reward 50 cW0).1.chain = cW0.chain
       ∧ (update_reward 50 cW0).1.curr_trans = cW0.curr_trans
       ∧ (update_reward 50 cW0).1.difficulty = cW0.difficulty
       ∧ (update_reward 50 cW0).1.miner_addr = cW0.miner_addr
       ∧ (update_reward 50 cW0).1.reward = 50
       ∧ (update_difficulty 2 cW0).1.chain = cW0.chain
       ∧ (update_difficulty 2 cW0).1.curr_trans = cW0.curr_trans
       ∧ (update_difficulty 2 cW0).1.miner_addr = cW0.miner_addr
       ∧ (update_difficulty 2 cW0).1.reward = cW0.reward
       ∧ (update_difficulty 2 cW0).1.difficulty = 2
       ∧ ∃ blk : Block, resR.1.chain = cW0.chain ++ [blk]
           ∧ blk.transactions.head? = some ⟨"Root", cW0.miner_addr, 50⟩) :=
  ⟨rfl, C9_update_reward_frame hash0 cW0 50 2 1 0 resR rfl⟩

/-- C10: `Chain::new` produces a chain with reward `100.0` holding exactly
the genesis block, whose transaction list is the single reward transaction
`{Root, miner_address, 100.0}` with `transaction_count` 1. -/
theorem C10_genesis (hash : HashInput → String) (fuel : Nat) (ts : Int)
    (addr : String) (diff : Nat) (c : Chain)
    (h : Chain.new hash fuel ts addr diff = .ok c) :
    c.reward = 100 ∧ c.chain.length = 1
    ∧ ∃ b : Block, c.chain = [b]
        ∧ b.transactions = [⟨"Root", addr, 100⟩]
        ∧ b.count = 1 := by
  rw [chain_new_unfold] at h
  split at h
  · next res hgen =>
    cases h
    obtain ⟨h', hchain, -, -, -, hrew, -, -, -, -⟩ :=
      generate_ok_shape hash fuel ts _ res hgen
    refine ⟨hrew, ?_, ?_⟩
    · rw [hchain]; rfl
    · exact ⟨_, hchain, rfl, rfl⟩
  · exact RunRes.noConfusion h
  · exact RunRes.noConfusion h

/-- C10 witness: the concrete genesis chain built under `hash0`. -/
theorem C10_witness :
    Chain.new hash0 1 0 "m" 1 = .ok cW0
    ∧ (cW0.reward = 100 ∧ cW0.chain.length = 1
       ∧ ∃ b : Block, cW0.chain = [b]
           ∧ b.transactions = [⟨"Root", "m", 100⟩]
           ∧ b.count = 1) :=
  ⟨rfl, C10_genesis hash0 1 0 "m" 1 cW0 rfl⟩
